import Mathlib

/-!
Shallow embedding of `src/consensus.js` (Trac Oracle Aggregator,
reputation-based weighted consensus) and proofs about it.

Modelling conventions:
* JavaScript numbers are modelled as exact rationals (`ℚ`).
* `Math.sqrt` applied to a peer balance is modelled by an explicit function
  parameter `sq : ℚ → ℚ`: no claim depends on the numeric value of a balance
  square root, only on the fact that the weight is `sq balance`.
* `computeStandardDeviation` returns `Math.sqrt(avgSquaredDiff)`.  The standard
  deviation is only ever used in the two tests `stdDev === 0` and
  `|price - median| / stdDev > 2`.  Over the nonnegative radicand these are
  equivalent to `variance = 0` and `(price - median)^2 > 4 * variance`, so the
  model keeps the (exact, rational) variance and performs the squared
  comparisons; see `computeVariance` and `isOutlier`.
* The SQLite table `reputation (peerId PRIMARY KEY, offenses, blacklisted)` is
  modelled as an association list keyed by peer id.  `INSERT OR IGNORE`
  appends a default row when the key is absent, `UPDATE ... WHERE peerId = ?`
  rewrites the rows with that key.  The integer column `blacklisted` (0/1) is
  modelled as `Bool`.
* A JavaScript `throw` is modelled with `Except`; since the SQLite writes are
  committed as they happen, the consensus entry point returns the final store
  alongside the result, also on the error paths.
-/

/-- Minimum tokens required to participate (`MINIMUM_STAKE_THRESHOLD = 100`). -/
def MINIMUM_STAKE_THRESHOLD : ℚ := 100

/-- Number of offenses before blacklisting (`SLASHING_THRESHOLD = 3`). -/
def SLASHING_THRESHOLD : ℕ := 3

/-- Row of the `reputation` table: offense count and blacklist flag. -/
structure SlashRecord where
  offenses : ℕ
  blacklisted : Bool
deriving DecidableEq, Repr

/-- The persistent reputation store: the rows of the `reputation` table. -/
abbrev Store := List (String × SlashRecord)

/-- Raw `ORACLE_RES` submission `{ peerId, price, balance }`. -/
structure Submission where
  peerId : String
  price : ℚ
  balance : ℚ
deriving DecidableEq, Repr

/-- Qualified response `{ peerId, price, weight, balance }`. -/
structure Response where
  peerId : String
  price : ℚ
  weight : ℚ
  balance : ℚ
deriving DecidableEq, Repr

/-- Lookup of a row by peer id (`SELECT ... WHERE peerId = ?`). -/
def lookupRec : Store → String → Option SlashRecord
  | [], _ => none
  | (q, r) :: rest, p => if q = p then some r else lookupRec rest p

/-- Row rewrite by peer id (`UPDATE reputation SET ... WHERE peerId = ?`). -/
def updateRec : Store → String → SlashRecord → Store
  | [], _, _ => []
  | (q, r) :: rest, p, nr =>
      if q = p then (q, nr) :: updateRec rest p nr else (q, r) :: updateRec rest p nr

/-- Offense count a lookup of `p` observes (0 for an absent row). -/
def offensesOf (s : Store) (p : String) : ℕ :=
  ((lookupRec s p).getD ⟨0, false⟩).offenses

/-- Blacklist flag a lookup of `p` observes (`false` for an absent row). -/
def blacklistedOf (s : Store) (p : String) : Bool :=
  ((lookupRec s p).getD ⟨0, false⟩).blacklisted

/-- Model of `getSlashingRecord`: returns the record of `p`, materializing and
persisting a default `(0,false)` row on a miss (`INSERT OR IGNORE`). -/
def getSlashingRecord (p : String) (s : Store) : SlashRecord × Store :=
  match lookupRec s p with
  | some r => (r, s)
  | none => (⟨0, false⟩, s ++ [(p, ⟨0, false⟩)])

/-- Model of `recordSlashingOffense`: fetch, increment `offenses`, set
`blacklisted` when the new count reaches `SLASHING_THRESHOLD`, persist. -/
def recordSlashingOffense (p : String) (s : Store) : Store :=
  let fetched := getSlashingRecord p s
  let newOffenses := fetched.1.offenses + 1
  let newBlacklisted := if SLASHING_THRESHOLD ≤ newOffenses then true else fetched.1.blacklisted
  updateRec fetched.2 p ⟨newOffenses, newBlacklisted⟩

/-- Model of `computeMedian`: standard sorted median, 0 on the empty list. -/
def computeMedian (prices : List ℚ) : ℚ :=
  if prices = [] then 0
  else
    let sortedPrices := prices.insertionSort (· ≤ ·)
    let mid := sortedPrices.length / 2
    if sortedPrices.length % 2 = 0 then
      (sortedPrices.getD (mid - 1) 0 + sortedPrices.getD mid 0) / 2
    else sortedPrices.getD mid 0

/-- Model of `computeMean`: arithmetic mean, 0 on the empty list. -/
def computeMean (prices : List ℚ) : ℚ :=
  if prices = [] then 0 else (prices.sum) / prices.length

/-- Radicand computed by `computeStandardDeviation` (the population variance
`avgSquaredDiff`); the source returns `Math.sqrt` of this value, and the model
keeps the exact rational radicand because the standard deviation is only used
through the squared comparisons in `isOutlier`. -/
def computeVariance (prices : List ℚ) (mean : ℚ) : ℚ :=
  if prices = [] then 0
  else ((prices.map (fun price => (price - mean) ^ 2)).sum) / prices.length

/-- Outlier test of Stage B on a price: the source computes
`zScore = (stdDev === 0) ? 0 : |price - median| / stdDev` and flags
`zScore > 2`.  With `stdDev = sqrt variance` and `variance ≥ 0` this is
exactly `variance ≠ 0 ∧ (price - median)^2 > 4 * variance`. -/
def isOutlier (median variance price : ℚ) : Bool :=
  if variance = 0 then false else decide (4 * variance < (price - median) ^ 2)

/-- Sorting of responses ascending by price (`sort((a, b) => a.price - b.price)`). -/
def sortByPrice (l : List Response) : List Response :=
  l.insertionSort (fun a b => a.price ≤ b.price)

/-- Scan loop of `calculateWeightedMedian`: walk the sorted responses
accumulating weight and return the first price whose cumulative weight reaches
the target; past the end return the fallback. -/
def weightScanGo (target fb : ℚ) : ℚ → List Response → ℚ
  | _, [] => fb
  | cum, r :: rest =>
      let c := cum + r.weight
      if target ≤ c then r.price else weightScanGo target fb c rest

/-- Model of `calculateWeightedMedian`: 0 on the empty list, otherwise sort by
price ascending, set the target to half the total weight, and scan for the
first response whose cumulative weight reaches the target (fallback: the
highest price). -/
def calculateWeightedMedian (qualifiedResponses : List Response) : ℚ :=
  if qualifiedResponses = [] then 0
  else
    let sortedResponses := sortByPrice qualifiedResponses
    let totalWeight := (sortedResponses.map (fun r => r.weight)).sum
    let targetWeight := totalWeight / 2
    let fb := match sortedResponses.getLast? with
      | some r => r.price
      | none => 0
    weightScanGo targetWeight fb 0 sortedResponses

/-- Stage A of `processOracleConsensus` (Sybil defense and identity check):
drop blacklisted peers, drop balances below the stake threshold, keep the rest
with weight `sq balance` (the source's `Math.sqrt(balance)`). -/
def stageA (sq : ℚ → ℚ) : List Submission → Store → List Response × Store
  | [], s => ([], s)
  | r :: rest, s =>
      let fetched := getSlashingRecord r.peerId s
      if fetched.1.blacklisted then stageA sq rest fetched.2
      else if r.balance < MINIMUM_STAKE_THRESHOLD then stageA sq rest fetched.2
      else
        let tail := stageA sq rest fetched.2
        (⟨r.peerId, r.price, sq r.balance, r.balance⟩ :: tail.1, tail.2)

/-- Stage B of `processOracleConsensus` (anti-outlier filter): discard and
slash the responses flagged by `isOutlier`, keep the rest. -/
def stageB (median variance : ℚ) : List Response → Store → List Response × Store
  | [], s => ([], s)
  | r :: rest, s =>
      if isOutlier median variance r.price then
        stageB median variance rest (recordSlashingOffense r.peerId s)
      else
        let tail := stageB median variance rest s
        (r :: tail.1, tail.2)

/-- Typed failures of `processOracleConsensus`: the thrown messages
"No qualified responses for consensus." and
"No responses passed the outlier filter.". -/
inductive ConsensusError where
  | noQualifiedResponses
  | noResponsesPassedOutlierFilter
deriving DecidableEq, Repr

/-- Result `{ finalPrice, participants, totalWeight }` of a round. -/
structure ConsensusResult where
  finalPrice : ℚ
  participants : ℕ
  totalWeight : ℚ
deriving DecidableEq, Repr

/-- Local `medianPrice = computeMedian(prices)` of `processOracleConsensus`,
as a function of the valid responses. -/
def medianPrice (validResponses : List Response) : ℚ :=
  computeMedian (validResponses.map (fun r => r.price))

/-- Local `meanPrice = computeMean(prices)` of `processOracleConsensus`. -/
def meanPrice (validResponses : List Response) : ℚ :=
  computeMean (validResponses.map (fun r => r.price))

/-- Radicand of the local `stdDev = computeStandardDeviation(prices, meanPrice)`
of `processOracleConsensus` (see `computeVariance`). -/
def variancePrice (validResponses : List Response) : ℚ :=
  computeVariance (validResponses.map (fun r => r.price)) (meanPrice validResponses)

/-- Model of `processOracleConsensus`: Stage A (identity/stake filter), the
empty check, Stage B (outlier filter with median/variance of the valid
prices), the empty check, then the weighted median.  The final store is
returned on every path, the error paths included. -/
def processOracleConsensus (sq : ℚ → ℚ) (responses : List Submission) (s : Store) :
    Except ConsensusError ConsensusResult × Store :=
  let staged := stageA sq responses s
  if staged.1 = [] then (Except.error ConsensusError.noQualifiedResponses, staged.2)
  else
    let filtered := stageB (medianPrice staged.1) (variancePrice staged.1) staged.1 staged.2
    if filtered.1 = [] then
      (Except.error ConsensusError.noResponsesPassedOutlierFilter, filtered.2)
    else
      (Except.ok
        { finalPrice := calculateWeightedMedian filtered.1
          participants := filtered.1.length
          totalWeight := (filtered.1.map (fun r => r.weight)).sum }, filtered.2)

/-- Operations the repository performs on the reputation store. -/
inductive ReputationOp where
  | getRecord (p : String)
  | recordOffense (p : String)
deriving DecidableEq, Repr

/-- Effect of one reputation-store operation on the store. -/
def applyOp (s : Store) : ReputationOp → Store
  | ReputationOp.getRecord p => (getSlashingRecord p s).2
  | ReputationOp.recordOffense p => recordSlashingOffense p s

/-- Effect of a sequence of reputation-store operations. -/
def runOps (s : Store) (ops : List ReputationOp) : Store :=
  ops.foldl applyOp s

/-- Consistency of a store: the blacklist flag a lookup observes is exactly
"the observed offense count has reached the slashing threshold".  The empty
store satisfies it, and every reputation-store operation preserves it. -/
def storeConsistent (s : Store) : Prop :=
  ∀ p, blacklistedOf s p = decide (SLASHING_THRESHOLD ≤ offensesOf s p)

/-- Cumulative weight of the first `k` responses of a list. -/
def cumulWeight (l : List Response) (k : ℕ) : ℚ :=
  ((l.take k).map (fun r => r.weight)).sum

/-! ## Reputation-store lemmas -/

theorem lookupRec_append (s : Store) (q : String) (d : SlashRecord) (p : String) :
    lookupRec (s ++ [(q, d)]) p =
      match lookupRec s p with
      | some r => some r
      | none => if q = p then some d else none := by
  induction s with
  | nil => simp [lookupRec]
  | cons e rest ih =>
    obtain ⟨q', r'⟩ := e
    by_cases h : q' = p <;> simp [lookupRec, h, ih]

theorem lookupRec_updateRec (s : Store) (p : String) (nr : SlashRecord) (q : String) :
    lookupRec (updateRec s p nr) q =
      if p = q then (lookupRec s q).map (fun _ => nr) else lookupRec s q := by
  induction s with
  | nil => simp [lookupRec, updateRec]
  | cons e rest ih =>
    obtain ⟨q', r'⟩ := e
    simp only [updateRec, lookupRec]
    by_cases h1 : q' = p
    · subst h1
      by_cases h2 : q' = q
      · subst h2; simp [lookupRec]
      · simp [lookupRec, h2, ih]
    · by_cases h2 : q' = q
      · subst h2
        simp [lookupRec, h1, Ne.symm h1]
      · simp [lookupRec, h1, h2, ih]

theorem getSlashingRecord_fst (p : String) (s : Store) :
    (getSlashingRecord p s).1 = ⟨offensesOf s p, blacklistedOf s p⟩ := by
  unfold getSlashingRecord offensesOf blacklistedOf
  cases h : lookupRec s p <;> simp [h]

theorem lookupRec_getSlashingRecord_snd (p : String) (s : Store) (q : String) :
    lookupRec (getSlashingRecord p s).2 q =
      if q = p then some ⟨offensesOf s p, blacklistedOf s p⟩ else lookupRec s q := by
  unfold getSlashingRecord offensesOf blacklistedOf
  cases h : lookupRec s p with
  | some r => by_cases hq : q = p <;> simp [h, hq]
  | none =>
    rw [lookupRec_append]
    by_cases hq : q = p
    · subst hq; simp [h]
    · cases hq' : lookupRec s q <;> simp_all [eq_comm]

theorem offensesOf_getSlashingRecord_snd (p : String) (s : Store) (q : String) :
    offensesOf (getSlashingRecord p s).2 q = offensesOf s q := by
  unfold offensesOf
  rw [lookupRec_getSlashingRecord_snd]
  by_cases hq : q = p
  · subst hq; unfold offensesOf blacklistedOf; cases h : lookupRec s q <;> simp [h]
  · simp [hq]

theorem blacklistedOf_getSlashingRecord_snd (p : String) (s : Store) (q : String) :
    blacklistedOf (getSlashingRecord p s).2 q = blacklistedOf s q := by
  unfold blacklistedOf
  rw [lookupRec_getSlashingRecord_snd]
  by_cases hq : q = p
  · subst hq; unfold offensesOf blacklistedOf; cases h : lookupRec s q <;> simp [h]
  · simp [hq]

theorem offensesOf_recordSlashingOffense (p : String) (s : Store) (q : String) :
    offensesOf (recordSlashingOffense p s) q =
      if p = q then offensesOf s q + 1 else offensesOf s q := by
  simp only [recordSlashingOffense]
  unfold offensesOf
  rw [lookupRec_updateRec, lookupRec_getSlashingRecord_snd, getSlashingRecord_fst]
  by_cases hq : p = q
  · subst hq; simp [offensesOf]
  · simp [offensesOf, hq, Ne.symm hq]

theorem blacklistedOf_recordSlashingOffense (p : String) (s : Store) (q : String) :
    blacklistedOf (recordSlashingOffense p s) q =
      if p = q then
        (if SLASHING_THRESHOLD ≤ offensesOf s p + 1 then true else blacklistedOf s p)
      else blacklistedOf s q := by
  simp only [recordSlashingOffense]
  unfold blacklistedOf
  rw [lookupRec_updateRec, lookupRec_getSlashingRecord_snd, getSlashingRecord_fst]
  by_cases hq : p = q
  · subst hq
    simp [blacklistedOf]
  · simp [blacklistedOf, hq, Ne.symm hq]

/-! ## Slashing state machine lemmas -/

theorem offensesOf_applyOp_le (s : Store) (op : ReputationOp) (q : String) :
    offensesOf s q ≤ offensesOf (applyOp s op) q := by
  cases op with
  | getRecord p => rw [applyOp, offensesOf_getSlashingRecord_snd]
  | recordOffense p =>
      rw [applyOp, offensesOf_recordSlashingOffense]
      split <;> omega

theorem storeConsistent_applyOp {s : Store} (h : storeConsistent s) (op : ReputationOp) :
    storeConsistent (applyOp s op) := by
  cases op with
  | getRecord p =>
      intro q
      rw [applyOp, offensesOf_getSlashingRecord_snd, blacklistedOf_getSlashingRecord_snd]
      exact h q
  | recordOffense p =>
      intro q
      rw [applyOp, offensesOf_recordSlashingOffense, blacklistedOf_recordSlashingOffense]
      by_cases hq : p = q
      · subst hq
        simp only [if_pos rfl]
        rcases Nat.lt_or_ge (offensesOf s p + 1) SLASHING_THRESHOLD with hlt | hge
        · have h1 : ¬ SLASHING_THRESHOLD ≤ offensesOf s p := by omega
          have h2 : ¬ SLASHING_THRESHOLD ≤ offensesOf s p + 1 := by omega
          rw [if_neg h2, h p]
          simp [h1, h2]
        · rw [if_pos hge]
          simp [hge]
      · simp only [if_neg hq]
        exact h q

theorem offensesOf_runOps_le (ops : List ReputationOp) (s : Store) (q : String) :
    offensesOf s q ≤ offensesOf (runOps s ops) q := by
  induction ops generalizing s with
  | nil => exact Nat.le_refl _
  | cons op rest ih =>
      exact Nat.le_trans (offensesOf_applyOp_le s op q) (ih (applyOp s op))

theorem storeConsistent_runOps {s : Store} (h : storeConsistent s) (ops : List ReputationOp) :
    storeConsistent (runOps s ops) := by
  induction ops generalizing s with
  | nil => exact h
  | cons op rest ih => exact ih (storeConsistent_applyOp h op)

theorem runOps_append (s : Store) (ops ops' : List ReputationOp) :
    runOps s (ops ++ ops') = runOps (runOps s ops) ops' :=
  List.foldl_append _ _ _ _

/-! ## Stage A lemmas -/

theorem lookupRec_getSlashingRecord_snd_of_some {s : Store} {p : String} {r : SlashRecord}
    (h : lookupRec s p = some r) (q : String) :
    lookupRec (getSlashingRecord q s).2 p = some r := by
  rw [lookupRec_getSlashingRecord_snd]
  by_cases hpq : p = q
  · subst hpq
    simp [offensesOf, blacklistedOf, h]
  · simp [hpq, h]

theorem stageA_offensesOf (sq : ℚ → ℚ) (resp : List Submission) (s : Store) (q : String) :
    offensesOf (stageA sq resp s).2 q = offensesOf s q := by
  induction resp generalizing s with
  | nil => rfl
  | cons r rest ih =>
      simp only [stageA]
      split
      · rw [ih, offensesOf_getSlashingRecord_snd]
      · split
        · rw [ih, offensesOf_getSlashingRecord_snd]
        · rw [ih, offensesOf_getSlashingRecord_snd]

theorem stageA_blacklistedOf (sq : ℚ → ℚ) (resp : List Submission) (s : Store) (q : String) :
    blacklistedOf (stageA sq resp s).2 q = blacklistedOf s q := by
  induction resp generalizing s with
  | nil => rfl
  | cons r rest ih =>
      simp only [stageA]
      split
      · rw [ih, blacklistedOf_getSlashingRecord_snd]
      · split
        · rw [ih, blacklistedOf_getSlashingRecord_snd]
        · rw [ih, blacklistedOf_getSlashingRecord_snd]

theorem stageA_lookupRec_of_some (sq : ℚ → ℚ) (resp : List Submission) {s : Store}
    {p : String} {r : SlashRecord} (h : lookupRec s p = some r) :
    lookupRec (stageA sq resp s).2 p = some r := by
  induction resp generalizing s with
  | nil => exact h
  | cons x rest ih =>
      simp only [stageA]
      split
      · exact ih (lookupRec_getSlashingRecord_snd_of_some h _)
      · split
        · exact ih (lookupRec_getSlashingRecord_snd_of_some h _)
        · exact ih (lookupRec_getSlashingRecord_snd_of_some h _)

theorem stageA_peerId_mem (sq : ℚ → ℚ) (resp : List Submission) (s : Store) :
    ∀ x ∈ (stageA sq resp s).1, x.peerId ∈ resp.map Submission.peerId := by
  induction resp generalizing s with
  | nil => intro x hx; cases hx
  | cons r rest ih =>
      intro x hx
      simp only [stageA] at hx
      simp only [List.map_cons, List.mem_cons]
      split at hx
      · exact Or.inr (ih _ x hx)
      · split at hx
        · exact Or.inr (ih _ x hx)
        · rcases List.mem_cons.mp hx with rfl | hx'
          · exact Or.inl rfl
          · exact Or.inr (ih _ x hx')

theorem stageA_filter_blacklisted (sq : ℚ → ℚ) (resp : List Submission) {s : Store}
    {p : String} {r : SlashRecord} (h : lookupRec s p = some r) (hb : r.blacklisted = true) :
    stageA sq resp s = stageA sq (resp.filter (fun x => x.peerId != p)) s := by
  induction resp generalizing s with
  | nil => rfl
  | cons x rest ih =>
      by_cases hx : x.peerId = p
      · have hfetch : getSlashingRecord x.peerId s = (r, s) := by
          rw [hx]; unfold getSlashingRecord; rw [h]
        have hdrop : (x.peerId != p) = false := by simp [hx]
        rw [List.filter_cons, hdrop]
        simp only [stageA, hfetch, hb, if_true]
        exact ih h
      · have hkeep : (x.peerId != p) = true := by simp [hx]
        rw [List.filter_cons, hkeep]
        have hpres : lookupRec (getSlashingRecord x.peerId s).2 p = some r :=
          lookupRec_getSlashingRecord_snd_of_some h _
        simp only [stageA, ih hpres]

/-! ## Stage B lemmas -/

theorem stageB_fst_filter (m v : ℚ) (l : List Response) (s : Store) :
    (stageB m v l s).1 = l.filter (fun r => !(isOutlier m v r.price)) := by
  induction l generalizing s with
  | nil => rfl
  | cons r rest ih =>
      simp only [stageB, List.filter_cons]
      by_cases ho : isOutlier m v r.price
      · simp [ho, ih]
      · simp [ho, ih]

theorem stageB_offensesOf (m v : ℚ) (l : List Response) (s : Store) (q : String) :
    offensesOf (stageB m v l s).2 q =
      offensesOf s q +
        (l.filter (fun r => isOutlier m v r.price && r.peerId == q)).length := by
  induction l generalizing s with
  | nil => simp [stageB]
  | cons r rest ih =>
      simp only [stageB, List.filter_cons]
      by_cases ho : isOutlier m v r.price
      · rw [if_pos ho, ih, offensesOf_recordSlashingOffense]
        by_cases hq : r.peerId = q
        · have hcond : (isOutlier m v r.price && r.peerId == q) = true := by simp [ho, hq]
          rw [if_pos hq, hcond]
          simp [List.length_cons]
          omega
        · have hcond : (isOutlier m v r.price && r.peerId == q) = false := by simp [hq]
          rw [if_neg hq, hcond]
          simp only [Bool.false_eq_true, if_false]
      · have hcond : (isOutlier m v r.price && r.peerId == q) = false := by simp [ho]
        rw [if_neg ho, hcond]
        simp only [Bool.false_eq_true, if_false]
        exact ih s

theorem stageB_offensesOf_not_mem (m v : ℚ) (l : List Response) (s : Store) {q : String}
    (h : ∀ r ∈ l, r.peerId ≠ q) :
    offensesOf (stageB m v l s).2 q = offensesOf s q := by
  rw [stageB_offensesOf]
  have : (l.filter (fun r => isOutlier m v r.price && r.peerId == q)) = [] := by
    rw [List.filter_eq_nil_iff]
    intro r hr
    simp [h r hr]
  rw [this]
  rfl

/-! ## Weighted-median scan lemmas -/

theorem cumulWeight_cons_succ (r : Response) (l : List Response) (k : ℕ) :
    cumulWeight (r :: l) (k + 1) = r.weight + cumulWeight l k := by
  simp [cumulWeight]

theorem cumulWeight_length (l : List Response) :
    cumulWeight l l.length = (l.map (fun r => r.weight)).sum := by
  simp [cumulWeight]

theorem weightScanGo_cons (target fb cum : ℚ) (r : Response) (rest : List Response) :
    weightScanGo target fb cum (r :: rest) =
      if target ≤ cum + r.weight then r.price else weightScanGo target fb (cum + r.weight) rest :=
  rfl

theorem weightScanGo_char (target fb : ℚ) (l : List Response) (cum : ℚ)
    (hne : l ≠ []) (hw : ∀ r ∈ l, 0 ≤ r.weight)
    (hreach : target ≤ cum + cumulWeight l l.length) :
    ∃ i, ∃ h : i < l.length,
      weightScanGo target fb cum l = (l.get ⟨i, h⟩).price ∧
      target ≤ cum + cumulWeight l (i + 1) ∧
      ∀ j < i, cum + cumulWeight l (j + 1) < target := by
  induction l generalizing cum with
  | nil => exact absurd rfl hne
  | cons r rest ih =>
      by_cases hhit : target ≤ cum + r.weight
      · refine ⟨0, Nat.succ_pos _, ?_, ?_, ?_⟩
        · rw [weightScanGo_cons, if_pos hhit]
          rfl
        · rw [cumulWeight_cons_succ]
          simpa [cumulWeight] using hhit
        · intro j hj
          exact absurd hj (Nat.not_lt_zero j)
      · cases rest with
        | nil =>
            exfalso
            apply hhit
            simpa [cumulWeight] using hreach
        | cons r2 rest2 =>
            have hw' : ∀ x ∈ (r2 :: rest2), 0 ≤ x.weight := fun x hx =>
              hw x (List.mem_cons_of_mem _ hx)
            have hreach' : target ≤
                (cum + r.weight) + cumulWeight (r2 :: rest2) (r2 :: rest2).length := by
              have := hreach
              rw [List.length_cons, cumulWeight_cons_succ] at this
              linarith
            obtain ⟨i, hi, heq, hge, hlt⟩ :=
              ih (cum + r.weight) (List.cons_ne_nil r2 rest2) hw' hreach'
            refine ⟨i + 1, Nat.succ_lt_succ hi, ?_, ?_, ?_⟩
            · rw [weightScanGo_cons, if_neg hhit]
              exact heq
            · rw [cumulWeight_cons_succ]
              linarith
            · intro j hj
              cases j with
              | zero =>
                  rw [cumulWeight_cons_succ]
                  have h0 : cumulWeight (r2 :: rest2) 0 = 0 := by simp [cumulWeight]
                  rw [h0]
                  push_neg at hhit
                  linarith
              | succ j' =>
                  rw [cumulWeight_cons_succ]
                  have := hlt j' (Nat.lt_of_succ_lt_succ hj)
                  linarith

instance : IsTotal Response (fun a b => a.price ≤ b.price) :=
  ⟨fun a b => le_total a.price b.price⟩

instance : IsTrans Response (fun a b => a.price ≤ b.price) :=
  ⟨fun _ _ _ hab hbc => le_trans hab hbc⟩

instance : IsRefl Response (fun a b => a.price ≤ b.price) :=
  ⟨fun _ => le_refl _⟩

theorem sortByPrice_perm (rs : List Response) : List.Perm (sortByPrice rs) rs :=
  List.perm_insertionSort _ rs

theorem sortByPrice_sorted (rs : List Response) :
    List.Sorted (fun a b => a.price ≤ b.price) (sortByPrice rs) :=
  List.sorted_insertionSort _ rs

theorem sortByPrice_ne_nil {rs : List Response} (hne : rs ≠ []) : sortByPrice rs ≠ [] := by
  intro h
  apply hne
  have hp := sortByPrice_perm rs
  rw [h] at hp
  exact hp.symm.eq_nil

theorem calculateWeightedMedian_char (rs : List Response) (hne : rs ≠ [])
    (hw : ∀ r ∈ rs, 0 ≤ r.weight) :
    ∃ i, ∃ h : i < (sortByPrice rs).length,
      calculateWeightedMedian rs = ((sortByPrice rs).get ⟨i, h⟩).price ∧
      ((sortByPrice rs).map (fun r => r.weight)).sum / 2 ≤ cumulWeight (sortByPrice rs) (i + 1) ∧
      ∀ j < i,
        cumulWeight (sortByPrice rs) (j + 1) <
          ((sortByPrice rs).map (fun r => r.weight)).sum / 2 := by
  have hwL : ∀ r ∈ sortByPrice rs, 0 ≤ r.weight := fun r hr =>
    hw r ((sortByPrice_perm rs).subset hr)
  have hsum : (0 : ℚ) ≤ ((sortByPrice rs).map (fun r => r.weight)).sum := by
    apply List.sum_nonneg
    intro a ha
    obtain ⟨r, hr, rfl⟩ := List.mem_map.mp ha
    exact hwL r hr
  have hreach : ((sortByPrice rs).map (fun r => r.weight)).sum / 2 ≤
      0 + cumulWeight (sortByPrice rs) (sortByPrice rs).length := by
    rw [zero_add, cumulWeight_length]
    linarith
  obtain ⟨i, hi, heq, hge, hlt⟩ :=
    weightScanGo_char (((sortByPrice rs).map (fun r => r.weight)).sum / 2)
      (match (sortByPrice rs).getLast? with
        | some r => r.price
        | none => 0)
      (sortByPrice rs) 0 (sortByPrice_ne_nil hne) hwL hreach
  refine ⟨i, hi, ?_, ?_, ?_⟩
  · rw [← heq]
    simp only [calculateWeightedMedian, if_neg hne]
  · rw [zero_add] at hge
    exact hge
  · intro j hj
    have := hlt j hj
    rw [zero_add] at this
    exact this

theorem weightScanGo_mem (target fb cum : ℚ) (l : List Response) :
    (∃ r ∈ l, weightScanGo target fb cum l = r.price) ∨ weightScanGo target fb cum l = fb := by
  induction l generalizing cum with
  | nil => exact Or.inr rfl
  | cons r rest ih =>
      rw [weightScanGo_cons]
      by_cases hhit : target ≤ cum + r.weight
      · rw [if_pos hhit]
        exact Or.inl ⟨r, List.mem_cons_self r rest, rfl⟩
      · rw [if_neg hhit]
        rcases ih (cum + r.weight) with ⟨r', hr', heq⟩ | heq
        · exact Or.inl ⟨r', List.mem_cons_of_mem _ hr', heq⟩
        · exact Or.inr heq

/-! ## Statistics lemmas -/

theorem length_mul_le_sum (l : List ℚ) (c : ℚ) (h : ∀ x ∈ l, c ≤ x) :
    (l.length : ℚ) * c ≤ l.sum := by
  induction l with
  | nil => simp
  | cons a t ih =>
      have ha := h a (List.mem_cons_self a t)
      have ht := ih (fun x hx => h x (List.mem_cons_of_mem _ hx))
      simp only [List.length_cons, List.sum_cons]
      push_cast
      ring_nf
      ring_nf at ht
      linarith

theorem computeVariance_nonneg (l : List ℚ) (μ : ℚ) : 0 ≤ computeVariance l μ := by
  unfold computeVariance
  split
  · exact le_refl 0
  · apply div_nonneg
    · apply List.sum_nonneg
      intro a ha
      obtain ⟨x, _, rfl⟩ := List.mem_map.mp ha
      exact sq_nonneg _
    · exact_mod_cast Nat.zero_le _

theorem sum_sq_ge (part : List ℚ) (μ d : ℚ) (hd : 0 ≤ d)
    (h : ∀ x ∈ part, d ≤ μ - x ∨ d ≤ x - μ) :
    (part.length : ℚ) * d ^ 2 ≤ (part.map (fun x => (x - μ) ^ 2)).sum := by
  have := length_mul_le_sum (part.map (fun x => (x - μ) ^ 2)) (d ^ 2) ?_
  · rw [List.length_map] at this
    exact this
  · intro y hy
    obtain ⟨x, hx, rfl⟩ := List.mem_map.mp hy
    rcases h x hx with hside | hside
    · nlinarith
    · nlinarith

theorem sum_sq_part_nonneg (part : List ℚ) (μ : ℚ) :
    0 ≤ (part.map (fun x => (x - μ) ^ 2)).sum := by
  apply List.sum_nonneg
  intro a ha
  obtain ⟨x, _, rfl⟩ := List.mem_map.mp ha
  exact sq_nonneg _

theorem mem_take_le_sorted (L : List ℚ) (hs : List.Sorted (· ≤ ·) L) (k : ℕ)
    (hkpos : 0 < k) (hk : k - 1 < L.length) :
    ∀ x ∈ L.take k, x ≤ L.get ⟨k - 1, hk⟩ := by
  intro x hx
  obtain ⟨⟨i, hi⟩, rfl⟩ := List.mem_iff_get.mp hx
  have hik : i < k := by
    have := hi
    rw [List.length_take] at this
    omega
  have hiL : i < L.length := by
    have := hi
    rw [List.length_take] at this
    omega
  have hget : (L.take k).get ⟨i, hi⟩ = L.get ⟨i, hiL⟩ := by
    simp [List.get_eq_getElem]
  rw [hget]
  exact hs.rel_get_of_le (by simp [Fin.le_def]; omega)

theorem mem_drop_ge_sorted (L : List ℚ) (hs : List.Sorted (· ≤ ·) L) (k : ℕ)
    (hk : k < L.length) :
    ∀ x ∈ L.drop k, L.get ⟨k, hk⟩ ≤ x := by
  intro x hx
  obtain ⟨⟨i, hi⟩, rfl⟩ := List.mem_iff_get.mp hx
  have hiL : k + i < L.length := by
    have := hi
    rw [List.length_drop] at this
    omega
  have hget : (L.drop k).get ⟨i, hi⟩ = L.get ⟨k + i, hiL⟩ := by
    simp [List.get_eq_getElem]
  rw [hget]
  exact hs.rel_get_of_le (by simp [Fin.le_def])

theorem computeMedian_mem_of_odd (l : List ℚ) (hne : l ≠ [])
    (hodd : l.length % 2 = 1) : computeMedian l ∈ l := by
  have hperm := List.perm_insertionSort (fun a b : ℚ => a ≤ b) l
  have hlen : (l.insertionSort (fun a b : ℚ => a ≤ b)).length = l.length := hperm.length_eq
  have hlpos : 0 < l.length := List.length_pos.mpr hne
  have hmid : l.length / 2 < l.length := Nat.div_lt_self hlpos (by norm_num)
  simp only [computeMedian, if_neg hne, hlen]
  rw [if_neg (by omega)]
  rw [List.getD_eq_getElem _ _ (by rw [hlen]; exact hmid)]
  exact hperm.subset (List.getElem_mem _)

theorem computeMedian_of_even (l : List ℚ) (hne : l ≠ []) (heven : l.length % 2 = 0)
    (h1 : l.length / 2 - 1 < (l.insertionSort (fun a b : ℚ => a ≤ b)).length)
    (h2 : l.length / 2 < (l.insertionSort (fun a b : ℚ => a ≤ b)).length) :
    computeMedian l =
      ((l.insertionSort (fun a b : ℚ => a ≤ b)).get ⟨l.length / 2 - 1, h1⟩ +
       (l.insertionSort (fun a b : ℚ => a ≤ b)).get ⟨l.length / 2, h2⟩) / 2 := by
  have hperm := List.perm_insertionSort (fun a b : ℚ => a ≤ b) l
  have hlen : (l.insertionSort (fun a b : ℚ => a ≤ b)).length = l.length := hperm.length_eq
  simp only [computeMedian, if_neg hne, hlen]
  rw [if_pos heven]
  rw [List.getD_eq_getElem _ _ h1, List.getD_eq_getElem _ _ h2]
  simp [List.get_eq_getElem]

theorem exists_price_not_outlier (l : List ℚ) (μ : ℚ) (hne : l ≠ []) :
    ∃ x ∈ l, isOutlier (computeMedian l) (computeVariance l μ) x = false := by
  by_cases hv : computeVariance l μ = 0
  · obtain ⟨a, ha⟩ := List.exists_mem_of_ne_nil l hne
    exact ⟨a, ha, by simp [isOutlier, hv]⟩
  by_contra hcon
  push_neg at hcon
  have hout : ∀ x ∈ l, 4 * computeVariance l μ < (x - computeMedian l) ^ 2 := by
    intro x hx
    have hb := hcon x hx
    rw [Ne, Bool.not_eq_false] at hb
    unfold isOutlier at hb
    rw [if_neg hv] at hb
    exact of_decide_eq_true hb
  have hvpos : 0 < computeVariance l μ := lt_of_le_of_ne (computeVariance_nonneg l μ) (Ne.symm hv)
  have hperm := List.perm_insertionSort (fun a b : ℚ => a ≤ b) l
  have hsort : List.Sorted (· ≤ ·) (l.insertionSort (fun a b : ℚ => a ≤ b)) :=
    List.sorted_insertionSort _ l
  have hlen : (l.insertionSort (fun a b : ℚ => a ≤ b)).length = l.length := hperm.length_eq
  have hlpos : 0 < l.length := List.length_pos.mpr hne
  rcases Nat.mod_two_eq_zero_or_one l.length with heven | hodd
  rotate_left
  ·
    have hmem := computeMedian_mem_of_odd l hne hodd
    have h0 := hout _ hmem
    simp only [sub_self] at h0
    nlinarith
  ·
    set L := l.insertionSort (fun a b : ℚ => a ≤ b) with hLdef
    set n := l.length with hndef
    set k := n / 2 with hkdef
    have hk2 : n = 2 * k := by omega
    have hkpos : 0 < k := by omega
    have h1 : k - 1 < L.length := by rw [hlen]; omega
    have h2 : k < L.length := by rw [hlen]; omega
    set a := L.get ⟨k - 1, h1⟩ with hadef
    set b := L.get ⟨k, h2⟩ with hbdef
    have hab : a ≤ b := hsort.rel_get_of_le (by simp [Fin.le_def])
    have hm : computeMedian l = (a + b) / 2 := computeMedian_of_even l hne heven h1 h2
    have ha_mem : a ∈ l := by
      rw [hadef]
      exact hperm.subset (L.get_mem _ h1)
    have hb_mem : b ∈ l := by
      rw [hbdef]
      exact hperm.subset (L.get_mem _ h2)
    set v := computeVariance l μ with hvdef
    set d := (b - a) / 2 with hddef
    have hd_nonneg : 0 ≤ d := by rw [hddef]; linarith
    have hdv : 4 * v < d ^ 2 := by
      have := hout a ha_mem
      rw [hm] at this
      have heq : (a - (a + b) / 2) ^ 2 = d ^ 2 := by rw [hddef]; ring
      linarith [heq ▸ this]
    have hS : v = (l.map (fun x => (x - μ) ^ 2)).sum / (n : ℚ) := by
      rw [hvdef]
      unfold computeVariance
      rw [if_neg hne]
    have hSL : (l.map (fun x => (x - μ) ^ 2)).sum = (L.map (fun x => (x - μ) ^ 2)).sum :=
      ((hperm.map _).sum_eq).symm
    have hsplit : (L.map (fun x => (x - μ) ^ 2)).sum =
        ((L.take k).map (fun x => (x - μ) ^ 2)).sum +
        ((L.drop k).map (fun x => (x - μ) ^ 2)).sum := by
      conv_lhs => rw [← List.take_append_drop k L]
      rw [List.map_append, List.sum_append]
    have hlen_take : (L.take k).length = k := by
      rw [List.length_take, hlen]; omega
    have hlen_drop : (L.drop k).length = k := by
      rw [List.length_drop, hlen]; omega
    have hbound : ((k : ℚ)) * d ^ 2 ≤ (L.map (fun x => (x - μ) ^ 2)).sum := by
      rcases le_or_lt ((a + b) / 2) μ with hmu | hmu
      · have htake := mem_take_le_sorted L hsort k hkpos h1
        have hge := sum_sq_ge (L.take k) μ d hd_nonneg ?_
        · rw [hlen_take] at hge
          have hnn := sum_sq_part_nonneg (L.drop k) μ
          rw [hsplit]
          linarith
        · intro x hx
          left
          have := htake x hx
          rw [hddef]
          linarith
      · have hdrop := mem_drop_ge_sorted L hsort k h2
        have hge := sum_sq_ge (L.drop k) μ d hd_nonneg ?_
        · rw [hlen_drop] at hge
          have hnn := sum_sq_part_nonneg (L.take k) μ
          rw [hsplit]
          linarith
        · intro x hx
          right
          have := hdrop x hx
          rw [hddef]
          linarith
    have hfin : d ^ 2 ≤ 2 * v := by
      have hkq : (0 : ℚ) < (k : ℚ) := by exact_mod_cast hkpos
      have hnq : (n : ℚ) = 2 * (k : ℚ) := by exact_mod_cast hk2
      rw [hS, hSL, hnq]
      have hred : 2 * ((L.map (fun x => (x - μ) ^ 2)).sum / (2 * (k : ℚ))) =
          (L.map (fun x => (x - μ) ^ 2)).sum / (k : ℚ) := by
        field_simp
        ring
      rw [hred, le_div_iff₀ hkq]
      linarith
    linarith

theorem computeMedian_of_odd (l : List ℚ) (hne : l ≠ []) (hodd : l.length % 2 = 1)
    (h : l.length / 2 < (l.insertionSort (fun a b : ℚ => a ≤ b)).length) :
    computeMedian l = (l.insertionSort (fun a b : ℚ => a ≤ b)).get ⟨l.length / 2, h⟩ := by
  have hlen : (l.insertionSort (fun a b : ℚ => a ≤ b)).length = l.length :=
    (List.perm_insertionSort _ l).length_eq
  simp only [computeMedian, if_neg hne, hlen]
  rw [if_neg (by omega)]
  rw [List.getD_eq_getElem _ _ h]
  simp [List.get_eq_getElem]

instance : IsAntisymm ℚ (fun a b : ℚ => a ≤ b) := ⟨fun _ _ => le_antisymm⟩

theorem sorted_map_price (rs : List Response) :
    (sortByPrice rs).map (fun r => r.price) =
      (rs.map (fun r => r.price)).insertionSort (fun a b : ℚ => a ≤ b) := by
  exact @List.eq_of_perm_of_sorted ℚ (fun a b : ℚ => a ≤ b) _ _ _
    (((sortByPrice_perm rs).map _).trans (List.perm_insertionSort _ _).symm)
    (List.Pairwise.map _ (fun a b hab => hab) (sortByPrice_sorted rs))
    (List.sorted_insertionSort _ _)

theorem sum_const_list (l : List ℚ) (w : ℚ) (h : ∀ x ∈ l, x = w) :
    l.sum = l.length * w := by
  induction l with
  | nil => simp
  | cons a t ih =>
      have ha := h a (List.mem_cons_self a t)
      have ht := ih (fun x hx => h x (List.mem_cons_of_mem _ hx))
      simp only [List.sum_cons, List.length_cons, ha, ht]
      push_cast
      ring

theorem cumulWeight_const (l : List Response) (w : ℚ) (h : ∀ r ∈ l, r.weight = w)
    (k : ℕ) (hk : k ≤ l.length) : cumulWeight l k = k * w := by
  unfold cumulWeight
  rw [sum_const_list _ w]
  · rw [List.length_map, List.length_take]
    congr 1
    push_cast [Nat.min_eq_left hk]
    rfl
  · intro x hx
    obtain ⟨r, hr, rfl⟩ := List.mem_map.mp hx
    exact h r (List.mem_of_mem_take hr)

theorem isOutlier_eq_decide (m v x : ℚ) (hv : 0 ≤ v) :
    isOutlier m v x = decide (0 < v ∧ 4 * v < (x - m) ^ 2) := by
  unfold isOutlier
  by_cases h : v = 0
  · subst h
    simp
  · rw [if_neg h]
    have : 0 < v := lt_of_le_of_ne hv (Ne.symm h)
    simp [this]

/-! ## Claim theorems -/

/-- C1: for every non-empty list of responses (weights are nonnegative in the
data model, `weight = sqrt balance`), `calculateWeightedMedian` sorts the
responses ascending by price, sets the target to `totalWeight / 2`, and
returns the price of the first response in ascending-price scan order whose
cumulative weight is greater than or equal to the target; in particular on
`(100,w10),(110,w20),(120,w50),(130,w30)` it returns `120`. -/
theorem claimC1 :
    (∀ rs : List Response, rs ≠ [] → (∀ r ∈ rs, 0 ≤ r.weight) →
      ∃ i, ∃ h : i < (sortByPrice rs).length,
        calculateWeightedMedian rs = ((sortByPrice rs).get ⟨i, h⟩).price ∧
        ((sortByPrice rs).map (fun r => r.weight)).sum / 2 ≤
          cumulWeight (sortByPrice rs) (i + 1) ∧
        ∀ j < i, cumulWeight (sortByPrice rs) (j + 1) <
          ((sortByPrice rs).map (fun r => r.weight)).sum / 2) ∧
    calculateWeightedMedian
      [⟨"p1", 100, 10, 0⟩, ⟨"p2", 110, 20, 0⟩, ⟨"p3", 120, 50, 0⟩, ⟨"p4", 130, 30, 0⟩] =
      120 :=
  ⟨calculateWeightedMedian_char, by with_unfolding_all rfl⟩

/-- Witness for C1 at the spec's example list. -/
theorem claimC1_witness :
    (([⟨"p1", 100, 10, 0⟩, ⟨"p2", 110, 20, 0⟩, ⟨"p3", 120, 50, 0⟩,
        ⟨"p4", 130, 30, 0⟩] : List Response) ≠ []) ∧
    (∀ r ∈ ([⟨"p1", 100, 10, 0⟩, ⟨"p2", 110, 20, 0⟩, ⟨"p3", 120, 50, 0⟩,
        ⟨"p4", 130, 30, 0⟩] : List Response), 0 ≤ r.weight) ∧
    ∃ i, ∃ h : i < (sortByPrice [⟨"p1", 100, 10, 0⟩, ⟨"p2", 110, 20, 0⟩,
        ⟨"p3", 120, 50, 0⟩, ⟨"p4", 130, 30, 0⟩]).length,
      calculateWeightedMedian [⟨"p1", 100, 10, 0⟩, ⟨"p2", 110, 20, 0⟩,
          ⟨"p3", 120, 50, 0⟩, ⟨"p4", 130, 30, 0⟩] =
        ((sortByPrice [⟨"p1", 100, 10, 0⟩, ⟨"p2", 110, 20, 0⟩,
          ⟨"p3", 120, 50, 0⟩, ⟨"p4", 130, 30, 0⟩]).get ⟨i, h⟩).price ∧
      ((sortByPrice [⟨"p1", 100, 10, 0⟩, ⟨"p2", 110, 20, 0⟩, ⟨"p3", 120, 50, 0⟩,
          ⟨"p4", 130, 30, 0⟩]).map (fun r => r.weight)).sum / 2 ≤
        cumulWeight (sortByPrice [⟨"p1", 100, 10, 0⟩, ⟨"p2", 110, 20, 0⟩,
          ⟨"p3", 120, 50, 0⟩, ⟨"p4", 130, 30, 0⟩]) (i + 1) ∧
      ∀ j < i, cumulWeight (sortByPrice [⟨"p1", 100, 10, 0⟩, ⟨"p2", 110, 20, 0⟩,
          ⟨"p3", 120, 50, 0⟩, ⟨"p4", 130, 30, 0⟩]) (j + 1) <
        ((sortByPrice [⟨"p1", 100, 10, 0⟩, ⟨"p2", 110, 20, 0⟩, ⟨"p3", 120, 50, 0⟩,
          ⟨"p4", 130, 30, 0⟩]).map (fun r => r.weight)).sum / 2 :=
  ⟨List.cons_ne_nil _ _, fun r hr => by fin_cases hr <;> norm_num,
    claimC1.1 _ (List.cons_ne_nil _ _) (fun r hr => by fin_cases hr <;> norm_num)⟩

/-- C9: for every non-empty list of responses, the value returned by
`calculateWeightedMedian` is the price of some response present in the input
list. -/
theorem claimC9 (rs : List Response) (hne : rs ≠ []) :
    ∃ r ∈ rs, calculateWeightedMedian rs = r.price := by
  have hLne : sortByPrice rs ≠ [] := sortByPrice_ne_nil hne
  simp only [calculateWeightedMedian, if_neg hne]
  rcases weightScanGo_mem (((sortByPrice rs).map (fun r => r.weight)).sum / 2)
      (match (sortByPrice rs).getLast? with
        | some r => r.price
        | none => 0) 0 (sortByPrice rs) with ⟨r, hr, heq⟩ | heq
  · exact ⟨r, (sortByPrice_perm rs).subset hr, heq⟩
  · refine ⟨(sortByPrice rs).getLast hLne, (sortByPrice_perm rs).subset (List.getLast_mem hLne), ?_⟩
    rw [heq, List.getLast?_eq_getLast _ hLne]

/-- Witness for C9 at a concrete one-element list. -/
theorem claimC9_witness :
    (([⟨"a", 7, 0, 0⟩] : List Response) ≠ []) ∧
    ∃ r ∈ ([⟨"a", 7, 0, 0⟩] : List Response), calculateWeightedMedian [⟨"a", 7, 0, 0⟩] = r.price :=
  ⟨List.cons_ne_nil _ _, claimC9 _ (List.cons_ne_nil _ _)⟩

/-- C5 counterexample: the one-element list with price 7 and weight 0 has
total weight 0, yet `calculateWeightedMedian` returns 7, not 0. -/
theorem claimC5_counterexample :
    (([⟨"a", 7, 0, 0⟩] : List Response).map (fun r => r.weight)).sum = 0 ∧
    calculateWeightedMedian [⟨"a", 7, 0, 0⟩] = 7 ∧ (7 : ℚ) ≠ 0 :=
  ⟨by norm_num, by with_unfolding_all rfl, by norm_num⟩

/-- C5 amended: `calculateWeightedMedian` returns 0 exactly on the empty
list; a non-empty list whose weights are all 0 (total weight 0) instead
returns a minimal price of the input, because the first sorted response
already makes the cumulative weight reach the target `0 / 2 = 0`. -/
theorem claimC5_amended :
    calculateWeightedMedian [] = 0 ∧
    ∀ rs : List Response, rs ≠ [] → (∀ r ∈ rs, r.weight = 0) →
      ∃ r ∈ rs, calculateWeightedMedian rs = r.price ∧ ∀ x ∈ rs, r.price ≤ x.price := by
  constructor
  · rfl
  · intro rs hne hzero
    have hLne : sortByPrice rs ≠ [] := sortByPrice_ne_nil hne
    have hzeroL : ∀ r ∈ sortByPrice rs, r.weight = 0 := fun r hr =>
      hzero r ((sortByPrice_perm rs).subset hr)
    have hsum : ((sortByPrice rs).map (fun r => r.weight)).sum = 0 := by
      apply List.sum_eq_zero
      intro x hx
      obtain ⟨r, hr, rfl⟩ := List.mem_map.mp hx
      exact hzeroL r hr
    simp only [calculateWeightedMedian, if_neg hne]
    rcases hL : sortByPrice rs with _ | ⟨h, t⟩
    · exact absurd hL hLne
    · have hhw : h.weight = 0 := hzeroL h (by rw [hL]; exact List.mem_cons_self h t)
      have hhit : ((sortByPrice rs).map (fun r => r.weight)).sum / 2 ≤ 0 + h.weight := by
        rw [hsum, hhw]
        norm_num
      refine ⟨h, (sortByPrice_perm rs).subset (by rw [hL]; exact List.mem_cons_self h t), ?_, ?_⟩
      · rw [hL] at hhit
        rw [weightScanGo_cons, if_pos hhit]
      · intro x hx
        have hxL : x ∈ sortByPrice rs := (sortByPrice_perm rs).symm.subset hx
        rw [hL] at hxL
        rcases List.mem_cons.mp hxL with rfl | hxt
        · exact le_refl _
        · have hsorted := sortByPrice_sorted rs
          rw [hL] at hsorted
          exact List.rel_of_sorted_cons hsorted x hxt

theorem computeMedian_of_odd_getD (l : List ℚ) (hne : l ≠ []) (hodd : l.length % 2 = 1) :
    computeMedian l = (l.insertionSort (fun a b : ℚ => a ≤ b)).getD (l.length / 2) 0 := by
  have hlen : (l.insertionSort (fun a b : ℚ => a ≤ b)).length = l.length :=
    (List.perm_insertionSort _ l).length_eq
  simp only [computeMedian, if_neg hne, hlen]
  rw [if_neg (by omega)]

theorem computeMedian_of_even_getD (l : List ℚ) (hne : l ≠ []) (heven : l.length % 2 = 0) :
    computeMedian l =
      ((l.insertionSort (fun a b : ℚ => a ≤ b)).getD (l.length / 2 - 1) 0 +
       (l.insertionSort (fun a b : ℚ => a ≤ b)).getD (l.length / 2) 0) / 2 := by
  have hlen : (l.insertionSort (fun a b : ℚ => a ≤ b)).length = l.length :=
    (List.perm_insertionSort _ l).length_eq
  simp only [computeMedian, if_neg hne, hlen]
  rw [if_pos heven]

/-- Index reached by the weighted-median scan when all weights equal the same
positive value `w`: the scan stops at the response of sorted index `i` with
`rs.length ≤ 2 * i + 2` (the cumulative weight `(i+1)w` reaches `n*w/2`) and
`2 * j + 2 < rs.length` for every earlier index `j`. -/
theorem weightedMedian_const_index (rs : List Response) (w : ℚ) (hne : rs ≠ [])
    (hw : 0 < w) (hconst : ∀ r ∈ rs, r.weight = w) :
    ∃ i, ∃ h : i < (sortByPrice rs).length,
      calculateWeightedMedian rs = ((sortByPrice rs).get ⟨i, h⟩).price ∧
      rs.length ≤ 2 * i + 2 ∧
      ∀ j < i, 2 * j + 2 < rs.length := by
  have hlen : (sortByPrice rs).length = rs.length := (sortByPrice_perm rs).length_eq
  have hconstL : ∀ r ∈ sortByPrice rs, r.weight = w := fun r hr =>
    hconst r ((sortByPrice_perm rs).subset hr)
  have hwnn : ∀ r ∈ rs, 0 ≤ r.weight := fun r hr => (hconst r hr) ▸ le_of_lt hw
  obtain ⟨i, hi, heq, hge, hlt⟩ := calculateWeightedMedian_char rs hne hwnn
  have hallw : ∀ x ∈ (sortByPrice rs).map (fun r => r.weight), x = w := by
    intro x hx
    obtain ⟨r, hr, rfl⟩ := List.mem_map.mp hx
    exact hconstL r hr
  have htot : ((sortByPrice rs).map (fun r => r.weight)).sum = (rs.length : ℚ) * w := by
    rw [sum_const_list _ w hallw, List.length_map, hlen]
  refine ⟨i, hi, heq, ?_, ?_⟩
  · have hge' : ((rs.length : ℚ) / 2) * w ≤ ((i : ℚ) + 1) * w := by
      have h0 := hge
      rw [htot, cumulWeight_const _ w hconstL (i + 1) (by omega)] at h0
      push_cast at h0
      linarith
    have h2 : (rs.length : ℚ) / 2 ≤ (i : ℚ) + 1 := (mul_le_mul_right hw).mp hge'
    have h3 : (rs.length : ℚ) ≤ 2 * (i : ℚ) + 2 := by linarith
    exact_mod_cast h3
  · intro j hj
    have hj' := hlt j hj
    rw [htot, cumulWeight_const _ w hconstL (j + 1) (by omega)] at hj'
    have h2 : ((j : ℚ) + 1) * w < ((rs.length : ℚ) / 2) * w := by
      push_cast at hj'
      linarith
    have h3 : (j : ℚ) + 1 < (rs.length : ℚ) / 2 := (mul_lt_mul_right hw).mp h2
    have h4 : 2 * (j : ℚ) + 2 < (rs.length : ℚ) := by linarith
    exact_mod_cast h4

/-- Odd-length case: with equal positive weights the scan stops at sorted
index `n / 2`, the classical median position. -/
theorem weightedMedian_const_odd (rs : List Response) (w : ℚ) (hne : rs ≠ [])
    (hw : 0 < w) (hconst : ∀ r ∈ rs, r.weight = w) (hodd : rs.length % 2 = 1) :
    calculateWeightedMedian rs = computeMedian (rs.map (fun r => r.price)) := by
  have hlen : (sortByPrice rs).length = rs.length := (sortByPrice_perm rs).length_eq
  obtain ⟨i, hi, heq, hni, hall⟩ := weightedMedian_const_index rs w hne hw hconst
  have hit : i = rs.length / 2 := by
    rcases Nat.lt_or_ge (rs.length / 2) i with hlt2 | hge2
    · have := hall (rs.length / 2) hlt2
      omega
    · omega
  have hmne : rs.map (fun r => r.price) ≠ [] := by
    simp [hne]
  have hmodd : (rs.map (fun r => r.price)).length % 2 = 1 := by
    rw [List.length_map]
    exact hodd
  rw [computeMedian_of_odd_getD _ hmne hmodd, List.length_map, ← sorted_map_price]
  have hidx : rs.length / 2 < ((sortByPrice rs).map (fun r => r.price)).length := by
    rw [List.length_map, hlen]
    omega
  rw [List.getD_eq_getElem _ _ hidx]
  subst hit
  rw [heq]
  simp [List.get_eq_getElem]

/-- Even-length case: with equal positive weights the scan stops at sorted
index `n / 2 - 1`, the lower of the two middle positions. -/
theorem weightedMedian_const_even (rs : List Response) (w : ℚ) (hne : rs ≠ [])
    (hw : 0 < w) (hconst : ∀ r ∈ rs, r.weight = w) (heven : rs.length % 2 = 0)
    (h1 : rs.length / 2 - 1 < (sortByPrice rs).length) :
    calculateWeightedMedian rs =
      ((sortByPrice rs).get ⟨rs.length / 2 - 1, h1⟩).price := by
  have hlpos : 0 < rs.length := List.length_pos.mpr hne
  obtain ⟨i, hi, heq, hni, hall⟩ := weightedMedian_const_index rs w hne hw hconst
  have hit : i = rs.length / 2 - 1 := by
    rcases Nat.lt_or_ge (rs.length / 2 - 1) i with hlt2 | hge2
    · have := hall (rs.length / 2 - 1) hlt2
      omega
    · omega
  subst hit
  exact heq

/-- C6 counterexample: (1) two responses with equal weight 1 and prices 1 and
2 — the weighted median is 1 (the lower middle price) while the classical
median is 3/2; (2) the equal-weight reduction also fails for a zero common
weight even at odd length — three responses with weight 0 and prices 1, 2, 3
give weighted median 1 but classical median 2, which is why the amendment
restricts to equal positive weights. -/
theorem claimC6_counterexample :
    ((∀ r ∈ ([⟨"a", 1, 1, 0⟩, ⟨"b", 2, 1, 0⟩] : List Response), r.weight = 1) ∧
     calculateWeightedMedian [⟨"a", 1, 1, 0⟩, ⟨"b", 2, 1, 0⟩] = 1 ∧
     computeMedian (([⟨"a", 1, 1, 0⟩, ⟨"b", 2, 1, 0⟩] : List Response).map (fun r => r.price)) =
       3 / 2 ∧
     (1 : ℚ) ≠ 3 / 2) ∧
    ((∀ r ∈ ([⟨"a", 1, 0, 0⟩, ⟨"b", 2, 0, 0⟩, ⟨"c", 3, 0, 0⟩] : List Response), r.weight = 0) ∧
     calculateWeightedMedian [⟨"a", 1, 0, 0⟩, ⟨"b", 2, 0, 0⟩, ⟨"c", 3, 0, 0⟩] = 1 ∧
     computeMedian (([⟨"a", 1, 0, 0⟩, ⟨"b", 2, 0, 0⟩, ⟨"c", 3, 0, 0⟩] : List Response).map
       (fun r => r.price)) = 2 ∧
     (1 : ℚ) ≠ 2) :=
  ⟨⟨fun r hr => by fin_cases hr <;> rfl, by with_unfolding_all rfl,
      by with_unfolding_all rfl, by norm_num⟩,
    ⟨fun r hr => by fin_cases hr <;> rfl, by with_unfolding_all rfl,
      by with_unfolding_all rfl, by norm_num⟩⟩

/-- C6 amended: for every non-empty list of responses whose weights all equal
the same positive value, `calculateWeightedMedian` equals the classical
sorted median `computeMedian` of the prices when the length is odd; when the
length is even it returns the lower of the two middle prices of the
ascending sort, while `computeMedian` is the average of the two middle
prices, so the two agree exactly when the two middle prices coincide.
Positivity is needed: with a zero common weight the scan returns the lowest
price even at odd length (second conjunct of the counterexample). -/
theorem claimC6_amended (rs : List Response) (w : ℚ) (hne : rs ≠ []) (hw : 0 < w)
    (hconst : ∀ r ∈ rs, r.weight = w) :
    (rs.length % 2 = 1 →
      calculateWeightedMedian rs = computeMedian (rs.map (fun r => r.price))) ∧
    (rs.length % 2 = 0 →
      ∃ h1 : rs.length / 2 - 1 < (sortByPrice rs).length,
      ∃ h2 : rs.length / 2 < (sortByPrice rs).length,
        calculateWeightedMedian rs = ((sortByPrice rs).get ⟨rs.length / 2 - 1, h1⟩).price ∧
        computeMedian (rs.map (fun r => r.price)) =
          (((sortByPrice rs).get ⟨rs.length / 2 - 1, h1⟩).price +
           ((sortByPrice rs).get ⟨rs.length / 2, h2⟩).price) / 2 ∧
        (calculateWeightedMedian rs = computeMedian (rs.map (fun r => r.price)) ↔
          ((sortByPrice rs).get ⟨rs.length / 2 - 1, h1⟩).price =
            ((sortByPrice rs).get ⟨rs.length / 2, h2⟩).price)) := by
  have hlen : (sortByPrice rs).length = rs.length := (sortByPrice_perm rs).length_eq
  have hlpos : 0 < rs.length := List.length_pos.mpr hne
  refine ⟨weightedMedian_const_odd rs w hne hw hconst, ?_⟩
  intro heven
  have h1 : rs.length / 2 - 1 < (sortByPrice rs).length := by
    rw [hlen]
    omega
  have h2 : rs.length / 2 < (sortByPrice rs).length := by
    rw [hlen]
    omega
  have hres := weightedMedian_const_even rs w hne hw hconst heven h1
  have hmne : rs.map (fun r => r.price) ≠ [] := by
    simp [hne]
  have hmeven : (rs.map (fun r => r.price)).length % 2 = 0 := by
    rw [List.length_map]
    exact heven
  have hmed : computeMedian (rs.map (fun r => r.price)) =
      (((sortByPrice rs).get ⟨rs.length / 2 - 1, h1⟩).price +
       ((sortByPrice rs).get ⟨rs.length / 2, h2⟩).price) / 2 := by
    rw [computeMedian_of_even_getD _ hmne hmeven, List.length_map, ← sorted_map_price]
    have hb1 : rs.length / 2 - 1 < ((sortByPrice rs).map (fun r => r.price)).length := by
      rw [List.length_map]
      exact h1
    have hb2 : rs.length / 2 < ((sortByPrice rs).map (fun r => r.price)).length := by
      rw [List.length_map]
      exact h2
    rw [List.getD_eq_getElem _ _ hb1, List.getD_eq_getElem _ _ hb2]
    simp [List.get_eq_getElem]
  refine ⟨h1, h2, hres, hmed, ?_⟩
  rw [hres, hmed]
  constructor
  · intro h
    linarith
  · intro h
    linarith

/-- Witness for the amended C5 at a concrete all-zero-weight list. -/
theorem claimC5_witness :
    (([⟨"a", 7, 0, 0⟩] : List Response) ≠ []) ∧
    (∀ r ∈ ([⟨"a", 7, 0, 0⟩] : List Response), r.weight = 0) ∧
    ∃ r ∈ ([⟨"a", 7, 0, 0⟩] : List Response),
      calculateWeightedMedian [⟨"a", 7, 0, 0⟩] = r.price ∧
      ∀ x ∈ ([⟨"a", 7, 0, 0⟩] : List Response), r.price ≤ x.price :=
  ⟨List.cons_ne_nil _ _, fun r hr => by fin_cases hr; rfl,
    claimC5_amended.2 _ (List.cons_ne_nil _ _) (fun r hr => by fin_cases hr; rfl)⟩

/-- Witness for the amended C6 at a concrete even-length equal-weight list:
the weighted median is the lower middle price 2 while the classical median
is 5/2. -/
theorem claimC6_witness :
    (0 : ℚ) < 2 ∧
    (∀ r ∈ ([⟨"a", 1, 2, 0⟩, ⟨"b", 2, 2, 0⟩, ⟨"c", 3, 2, 0⟩, ⟨"d", 4, 2, 0⟩] : List Response),
      r.weight = 2) ∧
    calculateWeightedMedian [⟨"a", 1, 2, 0⟩, ⟨"b", 2, 2, 0⟩, ⟨"c", 3, 2, 0⟩, ⟨"d", 4, 2, 0⟩] =
      2 ∧
    computeMedian (([⟨"a", 1, 2, 0⟩, ⟨"b", 2, 2, 0⟩, ⟨"c", 3, 2, 0⟩, ⟨"d", 4, 2, 0⟩] :
      List Response).map (fun r => r.price)) = 5 / 2 := by
  refine ⟨by norm_num, fun r hr => by fin_cases hr <;> rfl, ?_, by with_unfolding_all rfl⟩
  obtain ⟨h1, h2, hres, hmed, hiff⟩ :=
    (claimC6_amended [⟨"a", 1, 2, 0⟩, ⟨"b", 2, 2, 0⟩, ⟨"c", 3, 2, 0⟩, ⟨"d", 4, 2, 0⟩] 2
      (List.cons_ne_nil _ _) (by norm_num) (fun r hr => by fin_cases hr <;> rfl)).2 rfl
  rw [hres]
  with_unfolding_all rfl

/-- C2: in Stage B of `processOracleConsensus`, which is `stageB` applied to
the Stage-A valid responses with the median and the (squared) standard
deviation of their prices, a valid response is excluded if and only if
`|price - median| > 2 * stdDev` when `stdDev > 0` — over exact rationals,
`(price - median)^2 > 4 * variance` with `variance > 0` — and no response is
excluded when `stdDev = 0` (`variance = 0`); every excluded response
increments its peer's offense count by exactly one `recordSlashingOffense`
call, and no other offense is recorded. -/
theorem claimC2 (valid : List Response) (s₁ : Store) :
    (stageB (medianPrice valid) (variancePrice valid) valid s₁).1 =
      valid.filter (fun r => decide ¬(0 < variancePrice valid ∧
        4 * variancePrice valid < (r.price - medianPrice valid) ^ 2)) ∧
    (variancePrice valid = 0 →
      (stageB (medianPrice valid) (variancePrice valid) valid s₁).1 = valid) ∧
    ∀ p, offensesOf (stageB (medianPrice valid) (variancePrice valid) valid s₁).2 p =
      offensesOf s₁ p +
        (valid.filter (fun r => decide ((0 < variancePrice valid ∧
          4 * variancePrice valid < (r.price - medianPrice valid) ^ 2) ∧
          r.peerId = p))).length := by
  have hvnn : 0 ≤ variancePrice valid := computeVariance_nonneg _ _
  refine ⟨?_, ?_, ?_⟩
  · rw [stageB_fst_filter]
    apply List.filter_congr
    intro r _
    rw [isOutlier_eq_decide _ _ _ hvnn]
    rcases Decidable.em (0 < variancePrice valid ∧
        4 * variancePrice valid < (r.price - medianPrice valid) ^ 2) with h | h
    · simp [h]
    · simp [h]
  · intro hzero
    rw [stageB_fst_filter]
    have : ∀ r ∈ valid, (!(isOutlier (medianPrice valid) (variancePrice valid) r.price)) = true := by
      intro r _
      unfold isOutlier
      rw [if_pos hzero]
      rfl
    rw [List.filter_congr (fun r hr => this r hr)]
    exact List.filter_true _
  · intro p
    rw [stageB_offensesOf]
    congr 1
    congr 1
    apply List.filter_congr
    intro r _
    rw [isOutlier_eq_decide _ _ _ hvnn]
    rcases Decidable.em (0 < variancePrice valid ∧
        4 * variancePrice valid < (r.price - medianPrice valid) ^ 2) with h | h
    · by_cases hp : r.peerId = p
      · simp [h, hp]
      · simp [h, hp]
    · simp [h]

/-- C8: the store returned by `processOracleConsensus` — also when the call
fails, in particular with the `noResponsesPassedOutlierFilter` error — keeps
every offense recorded during Stage B: every peer's offense count in the
returned store equals its previous count plus the number of its Stage-B
outlier-flagged valid responses; nothing is rolled back on an error. -/
theorem claimC8 (sq : ℚ → ℚ) (resp : List Submission) (s : Store) (p : String) :
    offensesOf (processOracleConsensus sq resp s).2 p =
      offensesOf s p +
        ((stageA sq resp s).1.filter (fun r =>
          isOutlier (medianPrice (stageA sq resp s).1) (variancePrice (stageA sq resp s).1)
              r.price
            && r.peerId == p)).length := by
  by_cases hval : (stageA sq resp s).1 = []
  · simp only [processOracleConsensus]
    rw [if_pos hval]
    simp only [hval, List.filter_nil, List.length_nil, Nat.add_zero]
    exact stageA_offensesOf sq resp s p
  · simp only [processOracleConsensus, if_neg hval]
    by_cases hq : (stageB (medianPrice (stageA sq resp s).1) (variancePrice (stageA sq resp s).1)
        (stageA sq resp s).1 (stageA sq resp s).2).1 = []
    · rw [if_pos hq]
      rw [stageB_offensesOf, stageA_offensesOf]
    · rw [if_neg hq]
      rw [stageB_offensesOf, stageA_offensesOf]

/-- C10: whenever the Stage-A valid set is non-empty, at least one valid
response survives the Stage-B outlier filter, so `processOracleConsensus`
never fails with the "No responses passed the outlier filter." error: when
the variance is 0 nothing is excluded, and when it is positive the prices
cannot all lie strictly more than two standard deviations from the median
(for odd length the median itself is a price; for even length the two middle
prices would force the variance above itself). -/
theorem claimC10 (sq : ℚ → ℚ) (resp : List Submission) (s : Store)
    (hvalid : (stageA sq resp s).1 ≠ []) :
    (processOracleConsensus sq resp s).1 ≠
      Except.error ConsensusError.noResponsesPassedOutlierFilter := by
  have hmne : (stageA sq resp s).1.map (fun r => r.price) ≠ [] := by
    simpa using hvalid
  obtain ⟨x, hx, hxf⟩ := exists_price_not_outlier ((stageA sq resp s).1.map (fun r => r.price))
    (computeMean ((stageA sq resp s).1.map (fun r => r.price))) hmne
  obtain ⟨r, hr, rfl⟩ := List.mem_map.mp hx
  have hq : (stageB (medianPrice (stageA sq resp s).1) (variancePrice (stageA sq resp s).1)
      (stageA sq resp s).1 (stageA sq resp s).2).1 ≠ [] := by
    rw [stageB_fst_filter]
    apply List.ne_nil_of_mem
    apply List.mem_filter.mpr
    refine ⟨hr, ?_⟩
    have : isOutlier (medianPrice (stageA sq resp s).1) (variancePrice (stageA sq resp s).1)
        r.price = false := hxf
    rw [this]
    rfl
  simp only [processOracleConsensus]
  rw [if_neg hvalid, if_neg hq]
  simp

/-- Witness for C10 at a concrete single qualifying submission. -/
theorem claimC10_witness :
    ((stageA (fun q => q) [⟨"a", 100, 400⟩] []).1 ≠ []) ∧
    (processOracleConsensus (fun q => q) [⟨"a", 100, 400⟩] []).1 ≠
      Except.error ConsensusError.noResponsesPassedOutlierFilter := by
  have hst : (stageA (fun q => q) [⟨"a", 100, 400⟩] []).1 = [⟨"a", 100, 400, 400⟩] := by
    with_unfolding_all rfl
  refine ⟨?_, claimC10 _ _ _ ?_⟩ <;> (rw [hst]; exact List.cons_ne_nil _ _)

/-- C4: while a peer's stored record has `blacklisted = true`, its submissions
are dropped in Stage A without recording any offense: the whole round —
result and final store — is identical to the round run on the submissions
with that peer's entries removed, so the peer contributes no weight and is
excluded from `participants` and `totalWeight`; moreover its offense count is
unchanged by the round. -/
theorem claimC4 (sq : ℚ → ℚ) (resp : List Submission) (s : Store) (p : String)
    (hb : blacklistedOf s p = true) :
    processOracleConsensus sq resp s =
      processOracleConsensus sq (resp.filter (fun x => x.peerId != p)) s ∧
    offensesOf (processOracleConsensus sq resp s).2 p = offensesOf s p := by
  obtain ⟨r0, hlook, hbl⟩ : ∃ r0, lookupRec s p = some r0 ∧ r0.blacklisted = true := by
    unfold blacklistedOf at hb
    cases h : lookupRec s p with
    | none => rw [h] at hb; simp at hb
    | some r => rw [h] at hb; exact ⟨r, rfl, hb⟩
  have hstage : stageA sq resp s = stageA sq (resp.filter (fun x => x.peerId != p)) s :=
    stageA_filter_blacklisted sq resp hlook hbl
  have heq : processOracleConsensus sq resp s =
      processOracleConsensus sq (resp.filter (fun x => x.peerId != p)) s := by
    unfold processOracleConsensus
    rw [hstage]
  refine ⟨heq, ?_⟩
  rw [heq]
  have hpeers : ∀ x ∈ (stageA sq (resp.filter (fun x => x.peerId != p)) s).1, x.peerId ≠ p := by
    intro x hx hxp
    have hmem := stageA_peerId_mem sq (resp.filter (fun x => x.peerId != p)) s x hx
    rw [hxp] at hmem
    obtain ⟨y, hy, hyp⟩ := List.mem_map.mp hmem
    have hf := List.of_mem_filter hy
    rw [hyp] at hf
    simp at hf
  by_cases hval : (stageA sq (resp.filter (fun x => x.peerId != p)) s).1 = []
  · simp only [processOracleConsensus]
    rw [if_pos hval]
    exact stageA_offensesOf _ _ _ _
  · simp only [processOracleConsensus]
    rw [if_neg hval]
    by_cases hq : (stageB (medianPrice (stageA sq (resp.filter (fun x => x.peerId != p)) s).1)
        (variancePrice (stageA sq (resp.filter (fun x => x.peerId != p)) s).1)
        (stageA sq (resp.filter (fun x => x.peerId != p)) s).1
        (stageA sq (resp.filter (fun x => x.peerId != p)) s).2).1 = []
    · rw [if_pos hq]
      rw [stageB_offensesOf_not_mem _ _ _ _ hpeers]
      exact stageA_offensesOf _ _ _ _
    · rw [if_neg hq]
      rw [stageB_offensesOf_not_mem _ _ _ _ hpeers]
      exact stageA_offensesOf _ _ _ _

/-- Witness for C4: a blacklisted peer resubmitting a qualifying price. -/
theorem claimC4_witness :
    blacklistedOf [("bad", ⟨3, true⟩)] "bad" = true ∧
    (processOracleConsensus (fun q => q)
        [⟨"bad", 100, 400⟩, ⟨"good", 100, 400⟩] [("bad", ⟨3, true⟩)] =
      processOracleConsensus (fun q => q)
        (([⟨"bad", 100, 400⟩, ⟨"good", 100, 400⟩] : List Submission).filter
          (fun x => x.peerId != "bad")) [("bad", ⟨3, true⟩)] ∧
    offensesOf (processOracleConsensus (fun q => q)
        [⟨"bad", 100, 400⟩, ⟨"good", 100, 400⟩] [("bad", ⟨3, true⟩)]).2 "bad" =
      offensesOf [("bad", ⟨3, true⟩)] "bad") :=
  ⟨by with_unfolding_all rfl,
    claimC4 _ _ _ _ (by with_unfolding_all rfl)⟩

/-- C7 counterexample: a single under-staked submission from a previously
unseen peer fails with `noQualifiedResponses`, yet the returned store is not
identical to the store before the call — `getSlashingRecord` has
materialized and persisted a default `(0, false)` row for the peer. -/
theorem claimC7_counterexample :
    (processOracleConsensus (fun q => q) [⟨"a", 1, 50⟩] []).1 =
      Except.error ConsensusError.noQualifiedResponses ∧
    (processOracleConsensus (fun q => q) [⟨"a", 1, 50⟩] []).2 = [("a", ⟨0, false⟩)] ∧
    ([("a", (⟨0, false⟩ : SlashRecord))] : Store) ≠ ([] : Store) :=
  ⟨by with_unfolding_all rfl, by with_unfolding_all rfl, by simp⟩

/-- C7 amended: when `processOracleConsensus` fails with
`noQualifiedResponses`, no offense is recorded and no blacklist flag changes:
every peer's observable record (offense count and blacklist flag, with the
default `(0, false)` read for absent rows) is identical before and after the
call; the store itself may differ only by materialized default rows for
peers looked up for the first time. -/
theorem claimC7_amended (sq : ℚ → ℚ) (resp : List Submission) (s : Store)
    (herr : (processOracleConsensus sq resp s).1 =
      Except.error ConsensusError.noQualifiedResponses) :
    ∀ p, offensesOf (processOracleConsensus sq resp s).2 p = offensesOf s p ∧
      blacklistedOf (processOracleConsensus sq resp s).2 p = blacklistedOf s p := by
  intro p
  by_cases hval : (stageA sq resp s).1 = []
  · simp only [processOracleConsensus]
    rw [if_pos hval]
    exact ⟨stageA_offensesOf _ _ _ _, stageA_blacklistedOf _ _ _ _⟩
  · exfalso
    simp only [processOracleConsensus] at herr
    rw [if_neg hval] at herr
    by_cases hq : (stageB (medianPrice (stageA sq resp s).1)
        (variancePrice (stageA sq resp s).1) (stageA sq resp s).1 (stageA sq resp s).2).1 = []
    · rw [if_pos hq] at herr
      simp at herr
    · rw [if_neg hq] at herr
      simp at herr

/-- Witness for the amended C7 at the counterexample's input. -/
theorem claimC7_witness :
    (processOracleConsensus (fun q => q) [⟨"a", 1, 50⟩] []).1 =
      Except.error ConsensusError.noQualifiedResponses ∧
    ∀ p, offensesOf (processOracleConsensus (fun q => q) [⟨"a", 1, 50⟩] []).2 p =
        offensesOf [] p ∧
      blacklistedOf (processOracleConsensus (fun q => q) [⟨"a", 1, 50⟩] []).2 p =
        blacklistedOf [] p :=
  ⟨by with_unfolding_all rfl, claimC7_amended _ _ _ (by with_unfolding_all rfl)⟩

/-- C3: over every sequence of Reputation Store / Slashing Engine operations
run from a consistent store (the empty store is consistent), the offense
count of every peer is monotonically non-decreasing, every reachable store
is consistent — the blacklist flag holds exactly when the offense count has
reached `SLASHING_THRESHOLD` (default 3), which makes the false→true flip
happen exactly on the `recordSlashingOffense` call where the count first
reaches the threshold — each `recordSlashingOffense` increments the count by
exactly 1, and a set blacklist flag is never reset by further operations. -/
theorem claimC3 (ops : List ReputationOp) (s : Store) (p : String)
    (hs : storeConsistent s) :
    offensesOf s p ≤ offensesOf (runOps s ops) p ∧
    storeConsistent (runOps s ops) ∧
    offensesOf (recordSlashingOffense p (runOps s ops)) p =
      offensesOf (runOps s ops) p + 1 ∧
    (blacklistedOf (runOps s ops) p = true ↔
      SLASHING_THRESHOLD ≤ offensesOf (runOps s ops) p) ∧
    ∀ ops', blacklistedOf (runOps s ops) p = true →
      blacklistedOf (runOps s (ops ++ ops')) p = true := by
  have hcons := storeConsistent_runOps hs ops
  refine ⟨offensesOf_runOps_le ops s p, hcons, ?_, ?_, ?_⟩
  · rw [offensesOf_recordSlashingOffense, if_pos rfl]
  · rw [hcons p]
    simp
  · intro ops' hb
    have h3 : SLASHING_THRESHOLD ≤ offensesOf (runOps s ops) p := by
      have hc := hcons p
      rw [hc] at hb
      exact of_decide_eq_true hb
    rw [runOps_append]
    have hmono := offensesOf_runOps_le ops' (runOps s ops) p
    have hc2 := (storeConsistent_runOps hcons ops') p
    rw [hc2]
    simp only [decide_eq_true_eq]
    omega

/-- Witness for C3: three offenses from the empty store blacklist the peer. -/
theorem claimC3_witness :
    storeConsistent ([] : Store) ∧
    (blacklistedOf (runOps [] [ReputationOp.recordOffense "m", ReputationOp.recordOffense "m",
        ReputationOp.recordOffense "m"]) "m" = true ↔
      SLASHING_THRESHOLD ≤ offensesOf (runOps [] [ReputationOp.recordOffense "m",
        ReputationOp.recordOffense "m", ReputationOp.recordOffense "m"]) "m") :=
  ⟨fun _ => rfl, (claimC3 [ReputationOp.recordOffense "m", ReputationOp.recordOffense "m",
    ReputationOp.recordOffense "m"] [] "m" (fun _ => rfl)).2.2.2.1⟩
